import Mathlib

/-
  Verification development for the RepoSense fleet engine.

  Shallow embedding of the Go sources:
    - src/pkg/updater/updater.go        (worker pool, pull-output classification)
    - src/internal/config/config.go     (configuration validation)
    - src/pkg/scanner/status.go         (status collector, parseInt)
    - src/pkg/cache/cache.go            (SQLite-backed description cache)
    - src/pkg/cache/metadata_cache.go   (cache manager / GetDescription)
    - src/unnamed/part_011              (repository scanner and filter)

  Go strings are modelled as Lean `String` / `List Char` (one `Char` per rune);
  wall-clock reads (`time.Now`, `CURRENT_TIMESTAMP`) are threaded as explicit
  `Nat` parameters; subprocess and HTTP effects are threaded as explicit
  environment functions; the Go 64-bit `int` is `Int` reduced modulo 2^64 at
  the operations where overflow can occur.
-/

set_option maxHeartbeats 1000000
set_option maxRecDepth 16384

namespace RepoSense

/-! ### Go standard-library models -/

/-- Model of Go `strings.Contains` (the real standard-library one):
`sub` occurs as a contiguous substring of `s`. -/
def goContains (s sub : String) : Bool :=
  decide (sub.data <:+: s.data)

/-- Whether a Go `(value, err)` pair, modelled as `Except`, carries
`err == nil`. -/
def exceptIsOk : Except ε α → Bool
  | .ok _ => true
  | .error _ => false

deriving instance DecidableEq for Except

/-! ### src/pkg/updater/updater.go — `contains` / `containsHelper` -/

/-- `containsHelper` from src/pkg/updater/updater.go (lines 496-503):
scans every window `s[i:i+len(substr)]` for `0 ≤ i ≤ len(s)-len(substr)`.
The Go loop bound is an `int`; when `len(s) < len(substr)` the loop body
never runs, which the outer guard reproduces. -/
def containsHelper (s substr : List Char) : Bool :=
  if substr.length ≤ s.length then
    (List.range (s.length - substr.length + 1)).any
      (fun i => (s.drop i).take substr.length == substr)
  else
    false

/-- `contains` from src/pkg/updater/updater.go (lines 486-494).
Its comment claims case-insensitivity, but the body only compares exact
slices: length guard, whole-string equality, prefix slice, suffix slice,
then the window scan. -/
def contains (s substr : List Char) : Bool :=
  substr.length ≤ s.length &&
    (s == substr ||
      (substr.length < s.length &&
        (s.take substr.length == substr ||
         s.drop (s.length - substr.length) == substr ||
         containsHelper s substr)))

/-! ### src/internal/config/config.go — `Config.Validate` -/

/-- The fields of `Config` that `Validate` reads or writes
(src/internal/config/config.go). `timeout` is a Go `time.Duration`
in nanoseconds. -/
structure Config where
  workerCount : Int
  timeout : Int
  outputFormat : String
deriving DecidableEq

/-- `Config.Validate` from src/internal/config/config.go (lines 180-203):
clamps the worker count, defaults the timeout, and normalizes the output
format. The Go method mutates the receiver and always returns `nil`;
we return the mutated record. -/
def Validate (c : Config) : Config :=
  let c := if c.workerCount ≤ 0 then { c with workerCount := 10 } else c
  let c := if c.workerCount > 50 then { c with workerCount := 50 } else c
  let c := if c.timeout ≤ 0 then { c with timeout := 30 * 1000000000 } else c
  if c.outputFormat == "table" || c.outputFormat == "json" || c.outputFormat == "text" then
    c
  else
    { c with outputFormat := "text" }

/-! ### src/pkg/scanner/status.go — `parseInt` -/

/-- Reduction of an `Int` into the signed 64-bit range, the wrap-around
behaviour of Go's `int` on a 64-bit platform. -/
def wrap64 (x : Int) : Int :=
  (x + 2 ^ 63) % 2 ^ 64 - 2 ^ 63

/-- The accumulator loop of `parseInt` (src/pkg/scanner/status.go lines
294-303): `result = result*10 + int(ch-'0')` in Go `int` arithmetic.
The error message interpolates the whole original string `s`. -/
def parseIntGo (s : List Char) : Int → List Char → Except String Int
  | result, [] => .ok result
  | result, ch :: rest =>
    if ch < '0' || ch > '9' then
      .error ("invalid number: " ++ String.mk s)
    else
      parseIntGo s (wrap64 (result * 10 + ((ch.toNat : Int) - ('0'.toNat : Int)))) rest

/-- `parseInt` from src/pkg/scanner/status.go (lines 294-303). -/
def parseInt (s : List Char) : Except String Int :=
  parseIntGo s 0 s

/-- The exact decimal value denoted by a digit string (no wrap-around);
used to compare `parseInt` against mathematical evaluation. -/
def decimalValue (s : List Char) : Int :=
  s.foldl (fun a c => a * 10 + ((c.toNat : Int) - ('0'.toNat : Int))) 0

/-! ### src/unnamed/part_011 — Scanner

The directory tree handed to `filepath.Walk` is modelled as a nested
inductive; a path is the list of path segments from the walk root
(`filepath.Join` concatenation of names, which is injective on segment
lists because names contain no separator). -/

/-- A filesystem entry: a directory with named children, or a plain file.
`.git` may be either (the Go code checks with `os.Stat`). -/
inductive FSEntry where
  | dir (name : String) (children : List FSEntry)
  | file (name : String)
deriving Repr

/-- The name of an entry. -/
def FSEntry.name : FSEntry → String
  | .dir n _ => n
  | .file n => n

/-- The children of an entry (a file has none). -/
def FSEntry.childrenOf : FSEntry → List FSEntry
  | .dir _ cs => cs
  | .file _ => []

/-- Whether the entry is a directory (`info.IsDir()`). -/
def FSEntry.isDir : FSEntry → Bool
  | .dir _ _ => true
  | .file _ => false

/-- `Scanner.isGitRepository` (src/unnamed/part_011 lines 110-119):
`os.Stat(filepath.Join(path, ".git"))` succeeds exactly when the
directory has a child named `.git` (file or directory). -/
def isGitRepository (children : List FSEntry) : Bool :=
  children.any (fun e => e.name == ".git")

/-- `scanner.Repository` (src/unnamed/part_011 lines 12-17). The path is
kept as the list of segments below the walk root's parent. -/
structure Repository where
  path : List String
  name : String
  isGitRepo : Bool
  error : String := ""
deriving DecidableEq, Repr

instance : Inhabited Repository := ⟨⟨[], "", false, ""⟩⟩

mutual

/-- The `filepath.Walk` callback of `Scanner.ScanDirectory`
(src/unnamed/part_011 lines 39-83) as a recursive tree walk: files are
skipped; a directory containing a `.git` entry is emitted and not
descended (`filepath.SkipDir`); a directory named `.git` is skipped;
any other directory is descended. -/
def scanEntry : List String → FSEntry → List Repository
  | _, .file _ => []
  | parent, .dir n cs =>
    if isGitRepository cs then
      [{ path := parent ++ [n], name := n, isGitRepo := true }]
    else if n == ".git" then
      []
    else
      scanEntries (parent ++ [n]) cs

/-- The walk over the children of a descended directory, in directory
order. -/
def scanEntries : List String → List FSEntry → List Repository
  | _, [] => []
  | parent, c :: cs => scanEntry parent c ++ scanEntries parent cs

end

/-- `Scanner.ScanDirectory` for a walk rooted at `root`. -/
def ScanDirectory (root : FSEntry) : List Repository :=
  scanEntry [] root

/-- Resolution of a segment path against a list of sibling entries:
the filesystem lookup that the spec's "directory `D`" and "descendant"
language refers to. -/
def resolvePath : List FSEntry → List String → Option FSEntry
  | _, [] => none
  | cs, x :: xs =>
    match cs.find? (fun e => e.name == x) with
    | none => none
    | some e =>
      match xs with
      | [] => some e
      | _ :: _ => resolvePath e.childrenOf xs

mutual

/-- Well-formedness of a tree as a real filesystem: sibling names are
distinct at every level. -/
def wfEntry : FSEntry → Bool
  | .file _ => true
  | .dir _ cs => wfChildren cs

/-- Well-formedness of a sibling list: every child is well-formed and
no two siblings share a name. -/
def wfChildren : List FSEntry → Bool
  | [] => true
  | e :: es => wfEntry e && es.all (fun e2 => !(e2.name == e.name)) && wfChildren es

end

/-! ### src/unnamed/part_011 — Scanner filter -/

/-- Model of Go `strings.ToLower` restricted to the per-rune mapping. -/
def toLowerStr (s : String) : String :=
  String.mk (s.data.map Char.toLower)

/-- The absolute-path string of a repository as `filepath.Walk` builds it
(segments joined by the separator). -/
def pathString (p : List String) : String :=
  String.intercalate "/" p

/-- `Scanner.shouldIncludeRepository` (src/unnamed/part_011 lines
122-148): lowercase the basename and path, drop the repository if any
exclude pattern is a substring of either, accept everything when the
include list is empty, otherwise require some include pattern to match. -/
def shouldIncludeRepository (repo : Repository) (includePatterns excludePatterns : List String) : Bool :=
  let repoName := toLowerStr repo.name
  let repoPath := toLowerStr (pathString repo.path)
  if excludePatterns.any (fun pattern =>
      let pattern := toLowerStr pattern
      goContains repoName pattern || goContains repoPath pattern) then
    false
  else if includePatterns.isEmpty then
    true
  else
    includePatterns.any (fun pattern =>
      let pattern := toLowerStr pattern
      goContains repoName pattern || goContains repoPath pattern)

/-- `Scanner.ScanDirectoryWithFilter` (src/unnamed/part_011 lines 86-107):
scan, return unfiltered when both pattern lists are empty, otherwise keep
the repositories passing `shouldIncludeRepository`. -/
def ScanDirectoryWithFilter (root : FSEntry) (includePatterns excludePatterns : List String) : List Repository :=
  let repositories := ScanDirectory root
  if includePatterns.isEmpty && excludePatterns.isEmpty then
    repositories
  else
    repositories.filter (fun repo => shouldIncludeRepository repo includePatterns excludePatterns)

/-- The spec-side matching predicate of §4.1: a pattern matches a
repository when its lowercase form occurs as a substring of the lowercase
basename or of the lowercase absolute path. -/
def PatternMatches (repo : Repository) (pattern : String) : Prop :=
  (toLowerStr pattern).data <:+: (toLowerStr repo.name).data ∨
  (toLowerStr pattern).data <:+: (toLowerStr (pathString repo.path)).data

instance (repo : Repository) (pattern : String) : Decidable (PatternMatches repo pattern) := by
  unfold PatternMatches; infer_instance

/-! ### src/pkg/updater/updater.go — worker pool

The `git pull` subprocess is threaded as an environment function from the
repository to its outcome, and `time.Now` as a pair of `Nat` instants.
A non-cancelled run of the pool delivers every task to some worker and
collects the results in channel-arrival order, an arbitrary permutation
of the task indices; that arrival order is the `arrival` parameter. -/

/-- The fields of `UpdaterConfig` (src/pkg/updater/updater.go) that
`UpdateRepositories` / `updateRepository` read. -/
structure UpdaterConfig where
  workerCount : Int
  timeout : Int
  dryRun : Bool
  gitPullStrategy : String
  gitNonInteractive : Bool

/-- Outcome of the `git pull` subprocess for one repository:
`cmd.CombinedOutput()` plus, on failure, `err.Error()`. -/
inductive GitPullOutcome where
  | success (output : String)
  | failure (output : String) (errMsg : String)

/-- `updater.UpdateResult` (src/pkg/updater/updater.go). Times are `Nat`
instants; `duration = endTime - startTime`. -/
structure UpdateResult where
  repository : Repository
  success : Bool
  message : String
  error : String := ""
  startTime : Nat
  endTime : Nat
  duration : Int

/-- `parseGitPullOutput` (src/pkg/updater/updater.go lines 459-484):
classify the combined output via the local `contains` helper, falling
back to the first 100 characters of the output. -/
def parseGitPullOutput (output : String) : String :=
  if output == "" then "无输出"
  else if contains output.data "Already up to date".data then "已是最新版本"
  else if contains output.data "Already up-to-date".data then "已是最新版本"
  else if contains output.data "Fast-forward".data then "快进更新成功"
  else if contains output.data "Merge made by".data then "合并更新成功"
  else if contains output.data "files changed".data then "更新成功"
  else if output.data.length > 100 then String.mk (output.data.take 100) ++ "..."
  else output

/-- The failure-message classification of `updateRepository`
(src/pkg/updater/updater.go lines 420-446), by `strings.Contains` over
the combined output. -/
def classifyPullError (errorMsg : String) : String :=
  if goContains errorMsg "Permission denied" || goContains errorMsg "could not read from remote repository" then
    "更新失败: SSH认证失败或无权限访问远程仓库"
  else if goContains errorMsg "refusing to merge unrelated histories" then
    "更新失败: 拒绝合并不相关的历史记录"
  else if goContains errorMsg "non-fast-forward" then
    "更新失败: 非快进更新，本地有未推送的提交"
  else if goContains errorMsg "Authentication failed" then
    "更新失败: 认证失败，请检查访问凭据"
  else if goContains errorMsg "There is no tracking information" then
    "更新失败: 当前分支没有设置远程跟踪分支"
  else if goContains errorMsg "timeout" || goContains errorMsg "Timeout" then
    "更新失败: 连接超时，请检查网络或远程仓库状态"
  else if errorMsg.data.length > 100 then
    "更新失败: " ++ (String.mk (errorMsg.data.take 97) ++ "...")
  else
    "更新失败: " ++ errorMsg

/-- `Updater.updateRepository` (src/pkg/updater/updater.go lines
376-457): dry-run synthesizes a success, otherwise the pull outcome is
classified; start/end times and the duration are recorded. -/
def updateRepository (config : UpdaterConfig) (gitPull : Repository → GitPullOutcome)
    (times : Nat × Nat) (repo : Repository) : UpdateResult :=
  let startTime := times.1
  let endTime := times.2
  let base : UpdateResult :=
    { repository := repo, success := false, message := "",
      startTime := startTime, endTime := endTime,
      duration := (endTime : Int) - (startTime : Int) }
  if config.dryRun then
    { base with success := true, message := "DRY RUN: 模拟更新成功" }
  else
    match gitPull repo with
    | .success output =>
      { base with success := true, message := parseGitPullOutput output }
    | .failure output errMsg =>
      { base with success := false, message := classifyPullError output, error := errMsg }

/-- Observable outcome of one `UpdateRepositories` call: the collected
result list and how many worker goroutines were spawned. -/
structure UpdateRun where
  results : List UpdateResult
  workersSpawned : Nat
deriving Inhabited

/-- `Updater.UpdateRepositories` (src/pkg/updater/updater.go lines
311-357) for a non-cancelled run: an empty input returns the empty list
before any worker is spawned; otherwise `WorkerCount` workers are
spawned, every task is executed exactly once, and the results are
collected in channel-arrival order `arrival` (a permutation of the task
indices, supplied by the scheduler). -/
def UpdateRepositories (config : UpdaterConfig) (gitPull : Repository → GitPullOutcome)
    (times : Nat × Nat) (repositories : List Repository) (arrival : List Nat) : UpdateRun :=
  if repositories.length = 0 then
    { results := [], workersSpawned := 0 }
  else
    { results := arrival.map
        (fun i => updateRepository config gitPull times (repositories.getD i default)),
      workersSpawned := config.workerCount.toNat }

/-! ### src/pkg/scanner/status.go — status collector

Each fixed Git query of `CollectStatus` is threaded as one field of an
environment record: the `cmd.Output()` of the query, `Except`-valued as
the Go `(output, err)` pair. `time.Parse` of the commit date is a
further environment function. -/

/-- The subprocess outputs seen by one `CollectStatus` call. -/
structure GitStatusEnv where
  branchOut : Except String String
  revParseHeadOut : Except String String
  logSubjectOut : Except String String
  logDateOut : Except String String
  statusOut : Except String String
  remoteUrlOut : Except String String
  remoteShowOut : Except String String
  revParseVerifyOk : Bool
  revListAheadOut : Except String String
  revListBehindOut : Except String String
  parseTime : String → Option Nat

/-- `scanner.RepositoryStatus` (src/pkg/scanner/status.go lines 13-26).
The Go zero `time.Time` is modelled as `none`. -/
structure RepositoryStatus where
  repository : Repository
  branch : String := ""
  lastCommitHash : String := ""
  lastCommitMsg : String := ""
  lastCommitDate : Option Nat := none
  hasChanges : Bool := false
  status : String := ""
  remoteURL : String := ""
  ahead : Int := 0
  behind : Int := 0
  error : String := ""

/-- `getCurrentBranch` (src/pkg/scanner/status.go lines 118-129):
the trimmed `git branch --show-current` output. -/
def getCurrentBranch (env : GitStatusEnv) : Except String String :=
  env.branchOut.map (fun out => out.trim)

/-- `getLastCommitInfo` (src/pkg/scanner/status.go lines 132-167):
hash, subject and date in sequence; the first failing query returns an
error (`true` here) leaving later fields untouched; a date that fails to
parse is silently dropped. -/
def getLastCommitInfo (env : GitStatusEnv) (st : RepositoryStatus) : RepositoryStatus × Bool :=
  match env.revParseHeadOut with
  | .error _ => (st, true)
  | .ok out =>
    let st := { st with lastCommitHash := out.trim }
    match env.logSubjectOut with
    | .error _ => (st, true)
    | .ok out2 =>
      let st := { st with lastCommitMsg := out2.trim }
      match env.logDateOut with
      | .error _ => (st, true)
      | .ok out3 =>
        match env.parseTime out3.trim with
        | some d => ({ st with lastCommitDate := some d }, false)
        | none => (st, false)

/-- `getWorkingStatus` (src/pkg/scanner/status.go lines 169-224):
`git status --porcelain`; empty trimmed output is clean; otherwise the
lines are counted by their two-character prefix and summarized. -/
def getWorkingStatus (env : GitStatusEnv) : Except String (Bool × String) :=
  match env.statusOut with
  | .error e => .error e
  | .ok output =>
    let statusOutput := output.trim
    if statusOutput == "" then
      .ok (false, "干净")
    else
      let lines := statusOutput.splitOn "\n"
      let counted := lines.filter (fun line => line.data.length ≥ 2)
      let untracked := counted.countP (fun line => "??".isPrefixOf line)
      let added := counted.countP (fun line => !("??".isPrefixOf line) && "A ".isPrefixOf line)
      let deleted := counted.countP (fun line =>
        !("??".isPrefixOf line) && !("A ".isPrefixOf line) && "D ".isPrefixOf line)
      let modified := counted.countP (fun line =>
        !("??".isPrefixOf line) && !("A ".isPrefixOf line) && !("D ".isPrefixOf line) &&
          ("M ".isPrefixOf line || " M".isPrefixOf line))
      let statusParts :=
        (if modified > 0 then [toString modified ++ "个修改"] else []) ++
        (if added > 0 then [toString added ++ "个新增"] else []) ++
        (if deleted > 0 then [toString deleted ++ "个删除"] else []) ++
        (if untracked > 0 then [toString untracked ++ "个未跟踪"] else [])
      .ok (true, String.intercalate ", " statusParts)

/-- `getRemoteURL` (src/pkg/scanner/status.go lines 228-238). -/
def getRemoteURL (env : GitStatusEnv) : Except String String :=
  env.remoteUrlOut.map (fun out => out.trim)

/-- `getRemoteDiff` (src/pkg/scanner/status.go lines 241-291): a failing
`git remote show origin` probe yields `(0, 0)`; a missing tracking branch
yields `(0, 0)`; the two `rev-list --count` outputs are parsed with
`parseInt`, each failure leaving its count at zero. -/
def getRemoteDiff (env : GitStatusEnv) : Except String (Int × Int) :=
  match env.remoteShowOut with
  | .error _ => .ok (0, 0)
  | .ok _ =>
    match getCurrentBranch env with
    | .error e => .error e
    | .ok _branch =>
      if !env.revParseVerifyOk then .ok (0, 0)
      else
        let ahead : Int :=
          match env.revListAheadOut with
          | .ok out =>
            match parseInt out.trim.data with
            | .ok n => n
            | .error _ => 0
          | .error _ => 0
        let behind : Int :=
          match env.revListBehindOut with
          | .ok out =>
            match parseInt out.trim.data with
            | .ok n => n
            | .error _ => 0
          | .error _ => 0
        .ok (ahead, behind)

/-- `StatusCollector.CollectStatus` (src/pkg/scanner/status.go lines
51-101): a non-Git repository or a failing branch query set `error` and
return early; each later query failure is logged and skipped, leaving its
fields at their zero values. -/
def CollectStatus (env : GitStatusEnv) (repo : Repository) : RepositoryStatus :=
  let st : RepositoryStatus := { repository := repo }
  if !repo.isGitRepo then
    { st with error := "不是有效的Git仓库" }
  else
    match getCurrentBranch env with
    | .error e => { st with error := "获取分支信息失败: " ++ e }
    | .ok branch =>
      let st := { st with branch := branch }
      let st := (getLastCommitInfo env st).1
      let st :=
        match getWorkingStatus env with
        | .error _ => st
        | .ok hs => { st with hasChanges := hs.1, status := hs.2 }
      let st :=
        match getRemoteURL env with
        | .error _ => st
        | .ok url => { st with remoteURL := url }
      let st :=
        match getRemoteDiff env with
        | .error _ => st
        | .ok ab => { st with ahead := ab.1, behind := ab.2 }
      st

/-! ### src/pkg/cache/cache.go — description cache

The SQLite `repositories` table (schema in cache.go lines 634-647) is a
list of rows in rowid order; `path` is UNIQUE, `id` autoincrements, and
the three timestamp columns default to `CURRENT_TIMESTAMP`, threaded
here as the explicit instant `now`. `hashContent` computes the SHA-256
hex digest of the README bytes; the digest function itself is threaded
as a parameter `hash` (the engine never inspects digests other than by
equality). -/

/-- One row of the `repositories` table. -/
structure RepoRow where
  id : Nat
  path : String
  name : String
  readmeHash : String
  description : String
  llmProvider : String
  llmModel : String
  llmLanguage : String
  createdAt : Nat
  updatedAt : Nat
  lastAccessed : Nat
deriving DecidableEq, Repr

/-- The cache database: the `repositories` rows in rowid order, the next
autoincrement id, and the singleton `cache_stats` counters. -/
structure CacheDB where
  rows : List RepoRow
  nextId : Nat
  cacheHits : Nat
  cacheMisses : Nat
  llmApiCalls : Nat
deriving DecidableEq, Repr

/-- `Cache.GetCachedDescription` (src/pkg/cache/cache.go lines 452-484):
`SELECT ... WHERE path = ? AND readme_hash = ?` with the hash of the
query's README content; a hit bumps `last_accessed` on the row and the
`cache_hits` counter, a miss bumps `cache_misses`. -/
def GetCachedDescription (hash : String → String) (db : CacheDB)
    (repoPath readmeContent : String) (now : Nat) : Option RepoRow × CacheDB :=
  let readmeHash := hash readmeContent
  match db.rows.find? (fun r => r.path == repoPath && r.readmeHash == readmeHash) with
  | none => (none, { db with cacheMisses := db.cacheMisses + 1 })
  | some row =>
    (some row,
      { db with
          rows := db.rows.map (fun r => if r.id == row.id then { r with lastAccessed := now } else r),
          cacheHits := db.cacheHits + 1 })

/-- `Cache.SaveDescription` (src/pkg/cache/cache.go lines 486-505):
`INSERT OR REPLACE INTO repositories (path, name, readme_hash,
description, llm_provider, llm_model, llm_language, updated_at,
last_accessed) VALUES (..., CURRENT_TIMESTAMP, CURRENT_TIMESTAMP)`.
SQLite's REPLACE deletes any row conflicting on the UNIQUE `path` (or on
`id`) and inserts a fresh row, so `id` and the unlisted `created_at`
column take their defaults: a new rowid and `CURRENT_TIMESTAMP` of this
write. The `llm_api_calls` counter is then bumped. -/
def SaveDescription (hash : String → String) (db : CacheDB)
    (repoPath repoName readmeContent description llmProvider llmModel llmLanguage : String)
    (now : Nat) : CacheDB :=
  let readmeHash := hash readmeContent
  let row : RepoRow :=
    { id := db.nextId, path := repoPath, name := repoName, readmeHash := readmeHash,
      description := description, llmProvider := llmProvider, llmModel := llmModel,
      llmLanguage := llmLanguage, createdAt := now, updatedAt := now, lastAccessed := now }
  { db with
      rows := db.rows.filter (fun r => !(r.path == repoPath)) ++ [row],
      nextId := db.nextId + 1,
      llmApiCalls := db.llmApiCalls + 1 }

/-! ### src/pkg/cache/metadata_cache.go — `Manager.GetDescription` -/

/-- The manager flags read by `GetDescription`. `NewManager`
(metadata_cache.go lines 602-637) creates the `cache` handle exactly when
`enableCache` is set, so `m.cache != nil` is identified with
`enableCache`. -/
structure ManagerConfig where
  enableCache : Bool
  forceRefresh : Bool

/-- Observable outcome of one `Manager.GetDescription` call: the returned
`(description, error)` pair, the database afterwards, and whether the
LLM client was invoked. -/
structure GetDescriptionResult where
  description : Except String String
  db : CacheDB
  llmCalled : Bool
deriving Repr

/-- `Manager.GetDescription` (src/pkg/cache/metadata_cache.go lines
656-690): empty README returns immediately; with caching enabled and no
forced refresh the store is consulted first; on a miss the LLM client
(if any) is called, and a successful generation is upserted via
`SaveDescription` when caching is enabled. The LLM client is threaded as
`llmClient readmeContent llmLanguage`. -/
def GetDescription (cfg : ManagerConfig)
    (llmClient : Option (String → String → Except String String))
    (hash : String → String) (db : CacheDB)
    (repoPath repoName readmeContent llmProvider llmModel llmLanguage : String)
    (now : Nat) : GetDescriptionResult :=
  if readmeContent == "" then
    { description := .ok "", db := db, llmCalled := false }
  else
    let lookup : Option RepoRow × CacheDB :=
      if cfg.enableCache && !cfg.forceRefresh then
        GetCachedDescription hash db repoPath readmeContent now
      else
        (none, db)
    match lookup with
    | (some cached, db1) =>
      { description := .ok cached.description, db := db1, llmCalled := false }
    | (none, db1) =>
      match llmClient with
      | none => { description := .ok "", db := db1, llmCalled := false }
      | some generate =>
        match generate readmeContent llmLanguage with
        | .error e =>
          { description := .error ("LLM生成描述失败: " ++ e), db := db1, llmCalled := true }
        | .ok description =>
          let db2 :=
            if cfg.enableCache then
              SaveDescription hash db1 repoPath repoName readmeContent description
                llmProvider llmModel llmLanguage now
            else
              db1
          { description := .ok description, db := db2, llmCalled := true }

/-! ## Theorems -/

/-! ### Substring machinery shared by the `contains` and filter claims -/

theorem infix_of_pre {α : Type} {l₁ l₂ : List α} (h : l₁ <+: l₂) : l₁ <:+: l₂ :=
  List.IsPrefix.isInfix h

theorem infix_of_suf {α : Type} {l₁ l₂ : List α} (h : l₁ <:+ l₂) : l₁ <:+: l₂ :=
  List.IsSuffix.isInfix h

theorem infix_of_window {s sub : List Char} {i : Nat}
    (h : (s.drop i).take sub.length = sub) : sub <:+: s := by
  have h1 : sub <+: s.drop i := h ▸ List.take_prefix _ _
  exact List.IsInfix.trans (infix_of_pre h1) (infix_of_suf (List.drop_suffix i s))

theorem isInfix_window {s sub : List Char} (h : sub <:+: s) :
    ∃ i, i + sub.length ≤ s.length ∧ (s.drop i).take sub.length = sub := by
  obtain ⟨t, u, htu⟩ := h
  refine ⟨t.length, ?_, ?_⟩
  · rw [← htu]; simp only [List.length_append]; omega
  · have hdrop : s.drop t.length = sub ++ u := by
      rw [← htu, List.append_assoc, List.drop_left]
    rw [hdrop, List.take_left]

theorem containsHelper_iff (s sub : List Char) :
    containsHelper s sub = true ↔ sub <:+: s := by
  unfold containsHelper
  constructor
  · intro h
    by_cases hle : sub.length ≤ s.length
    · rw [if_pos hle] at h
      obtain ⟨i, _, hw⟩ := List.any_eq_true.mp h
      exact infix_of_window (by simpa using hw)
    · rw [if_neg hle] at h; cases h
  · intro h
    have hlen : sub.length ≤ s.length := List.IsInfix.length_le h
    rw [if_pos hlen]
    obtain ⟨i, hi, hw⟩ := isInfix_window h
    refine List.any_eq_true.mpr ⟨i, List.mem_range.mpr (by omega), by simpa using hw⟩

theorem contains_iff (s sub : List Char) :
    contains s sub = true ↔ sub <:+: s := by
  unfold contains
  constructor
  · intro h
    simp only [Bool.and_eq_true, Bool.or_eq_true, decide_eq_true_eq, beq_iff_eq] at h
    obtain ⟨_, h2⟩ := h
    rcases h2 with rfl | ⟨hlt, hcase⟩
    · exact List.infix_refl _
    · rcases hcase with h3 | h3
      · rcases h3 with h3 | h3
        · exact infix_of_pre (h3 ▸ List.take_prefix _ _)
        · exact infix_of_suf (h3 ▸ List.drop_suffix _ _)
      · exact (containsHelper_iff s sub).mp h3
  · intro h
    have hlen : sub.length ≤ s.length := List.IsInfix.length_le h
    simp only [Bool.and_eq_true, Bool.or_eq_true, decide_eq_true_eq, beq_iff_eq]
    refine ⟨hlen, ?_⟩
    rcases Nat.lt_or_ge sub.length s.length with hlt | hge
    · exact Or.inr ⟨hlt, Or.inr ((containsHelper_iff s sub).mpr h)⟩
    · have hsame : sub.length = s.length := le_antisymm hlen hge
      have heq := List.IsInfix.eq_of_length h hsame
      exact Or.inl heq.symm

/-- C9: the updater's `contains` helper is the plain case-sensitive
substring test — it agrees with Go `strings.Contains` on every pair of
strings, and holds exactly when the pattern occurs as a contiguous
substring, despite its comment claiming case-insensitivity. -/
theorem contains_is_case_sensitive_substring :
    (∀ s substr : String, contains s.data substr.data = goContains s substr) ∧
    (∀ s substr : String, contains s.data substr.data = true ↔ substr.data <:+: s.data) := by
  constructor
  · intro s substr
    rw [Bool.eq_iff_iff]
    simp [goContains, contains_iff]
  · intro s substr
    exact contains_iff _ _

/-! ### C6 — worker count clamping -/

theorem Validate_workerCount_eq (c : Config) :
    (Validate c).workerCount =
      if c.workerCount ≤ 0 then 10 else if c.workerCount > 50 then 50 else c.workerCount := by
  simp only [Validate]
  split_ifs <;> simp_all

/-- C6: `Validate` maps `W ≤ 0` to 10, `W > 50` to 50, leaves every `W`
in `[1, 50]` unchanged, and the result always lies in `[1, 50]`. -/
theorem Validate_clamps_workerCount (c : Config) :
    (c.workerCount ≤ 0 → (Validate c).workerCount = 10) ∧
    (c.workerCount > 50 → (Validate c).workerCount = 50) ∧
    (1 ≤ c.workerCount → c.workerCount ≤ 50 → (Validate c).workerCount = c.workerCount) ∧
    (1 ≤ (Validate c).workerCount ∧ (Validate c).workerCount ≤ 50) := by
  rw [Validate_workerCount_eq]
  split_ifs <;> refine ⟨?_, ?_, ?_, ?_, ?_⟩ <;> omega

/-- Witness for C6 at concrete worker counts −3, 99 and 7. -/
theorem Validate_clamps_workerCount_witness :
    (Validate ⟨-3, 5, "table"⟩).workerCount = 10 ∧
    (Validate ⟨99, 5, "json"⟩).workerCount = 50 ∧
    (Validate ⟨7, 5, "text"⟩).workerCount = 7 :=
  ⟨(Validate_clamps_workerCount ⟨-3, 5, "table"⟩).1 (by decide),
   (Validate_clamps_workerCount ⟨99, 5, "json"⟩).2.1 (by decide),
   (Validate_clamps_workerCount ⟨7, 5, "text"⟩).2.2.1 (by decide) (by decide)⟩

/-! ### C5 — empty README short-circuits the cache -/

/-- C5: `GetDescription` on an empty `readme_content` returns the empty
description with the store untouched (no row read or written, no counter
changed) and without calling the LLM. -/
theorem GetDescription_empty_readme (cfg : ManagerConfig)
    (llmClient : Option (String → String → Except String String))
    (hash : String → String) (db : CacheDB)
    (repoPath repoName llmProvider llmModel llmLanguage : String) (now : Nat) :
    GetDescription cfg llmClient hash db repoPath repoName "" llmProvider llmModel llmLanguage now
      = { description := .ok "", db := db, llmCalled := false } := by
  simp [GetDescription]

/-! ### C1 — double upsert -/

theorem filter_not_filter {α : Type} (l : List α) (p : α → Bool) :
    (l.filter (fun a => !(p a))).filter p = [] := by
  induction l with
  | nil => rfl
  | cons a t ih => by_cases h : p a <;> simp [List.filter_cons, h, ih]

theorem filter_not_idem {α : Type} (l : List α) (p : α → Bool) :
    (l.filter (fun a => !(p a))).filter (fun a => !(p a)) = l.filter (fun a => !(p a)) := by
  induction l with
  | nil => rfl
  | cons a t ih => by_cases h : p a <;> simp [List.filter_cons, h, ih]

/-- C1 counterexample: upserting the same `(path, readme_hash,
description)` at instant 0 and again at instant 1 leaves exactly one row
for the path, but its `created_at` is 1 — `INSERT OR REPLACE` deleted
the first row, so the unlisted `created_at` column took its
`CURRENT_TIMESTAMP` default again instead of keeping the value 0 of the
first write. -/
theorem SaveDescription_twice_resets_createdAt :
    ((SaveDescription (fun s => s)
        { rows := [], nextId := 0, cacheHits := 0, cacheMisses := 0, llmApiCalls := 0 }
        "p" "n" "r" "d" "prov" "mod" "zh" 0).rows.map RepoRow.createdAt = [0]) ∧
    ((SaveDescription (fun s => s)
        (SaveDescription (fun s => s)
          { rows := [], nextId := 0, cacheHits := 0, cacheMisses := 0, llmApiCalls := 0 }
          "p" "n" "r" "d" "prov" "mod" "zh" 0)
        "p" "n" "r" "d" "prov" "mod" "zh" 1).rows.map RepoRow.createdAt = [1]) ∧
    ((SaveDescription (fun s => s)
        (SaveDescription (fun s => s)
          { rows := [], nextId := 0, cacheHits := 0, cacheMisses := 0, llmApiCalls := 0 }
          "p" "n" "r" "d" "prov" "mod" "zh" 0)
        "p" "n" "r" "d" "prov" "mod" "zh" 1).rows.countP (fun r => r.path == "p") = 1) ∧
    (1 : Nat) ≠ 0 := by
  decide

/-- C1 (amended): calling `SaveDescription` twice with the same
`(path, readme_hash, description)` leaves exactly one row for that path,
whose `updated_at` is refreshed to the second write's instant — but whose
`created_at` is also reset to the second write's instant, because
`INSERT OR REPLACE` replaces the whole row and `created_at` re-takes its
default; it is not preserved from the first write. -/
theorem SaveDescription_twice_single_row (hash : String → String) (db : CacheDB)
    (path name readme desc prov model lang : String) (t1 t2 : Nat) :
    ((SaveDescription hash (SaveDescription hash db path name readme desc prov model lang t1)
        path name readme desc prov model lang t2).rows.filter (fun r => r.path == path) =
      [{ id := db.nextId + 1, path := path, name := name, readmeHash := hash readme,
         description := desc, llmProvider := prov, llmModel := model, llmLanguage := lang,
         createdAt := t2, updatedAt := t2, lastAccessed := t2 }]) ∧
    ((SaveDescription hash (SaveDescription hash db path name readme desc prov model lang t1)
        path name readme desc prov model lang t2).rows.countP (fun r => r.path == path) = 1) := by
  have hrows :
      (SaveDescription hash (SaveDescription hash db path name readme desc prov model lang t1)
          path name readme desc prov model lang t2).rows =
        db.rows.filter (fun r => !(r.path == path)) ++
          [{ id := db.nextId + 1, path := path, name := name, readmeHash := hash readme,
             description := desc, llmProvider := prov, llmModel := model, llmLanguage := lang,
             createdAt := t2, updatedAt := t2, lastAccessed := t2 }] := by
    simp only [SaveDescription, List.filter_append]
    rw [filter_not_idem]
    simp [List.filter_cons]
  constructor
  · rw [hrows, List.filter_append, filter_not_filter]
    simp [List.filter_cons]
  · rw [List.countP_eq_length_filter, hrows, List.filter_append, filter_not_filter]
    simp [List.filter_cons]

/-! ### C10 — parseInt -/

theorem char_le_iff_toNat {a b : Char} : a ≤ b ↔ a.toNat ≤ b.toNat := Iff.rfl

theorem char_lt_iff_toNat {a b : Char} : a < b ↔ a.toNat < b.toNat := Iff.rfl

theorem wrap64_eq_self {x : Int} (h0 : 0 ≤ x) (h1 : x < 2 ^ 63) : wrap64 x = x := by
  unfold wrap64
  rw [Int.emod_eq_of_lt (by omega) (by omega)]
  omega

theorem parseIntGo_isOk (s : List Char) :
    ∀ (l : List Char) (acc : Int),
      exceptIsOk (parseIntGo s acc l) = l.all (fun c => decide ('0' ≤ c) && decide (c ≤ '9')) := by
  intro l
  induction l with
  | nil => intro acc; rfl
  | cons c rest ih =>
    intro acc
    by_cases h : c < '0' ∨ c > '9'
    · have hc : ¬('0' ≤ c ∧ c ≤ '9') := by
        rcases h with h | h
        · exact fun hcon => absurd hcon.1 (not_le.mpr h)
        · exact fun hcon => absurd hcon.2 (not_le.mpr h)
      simp only [parseIntGo, List.all_cons]
      rw [if_pos (by simpa using h)]
      simp only [exceptIsOk]
      rcases not_and_or.mp hc with h' | h' <;> simp [h']
    · push_neg at h
      simp only [parseIntGo, List.all_cons]
      rw [if_neg (by simpa using h)]
      rw [ih]
      simp [h.1, h.2]

theorem decStep_ge {a : Int} {c : Char} (h0 : 0 ≤ a) (hd : '0' ≤ c) :
    a ≤ a * 10 + ((c.toNat : Int) - ('0'.toNat : Int)) ∧
      0 ≤ a * 10 + ((c.toNat : Int) - ('0'.toNat : Int)) := by
  have h := char_le_iff_toNat.mp hd
  have hz : '0'.toNat = 48 := by decide
  constructor <;> omega

theorem foldl_decStep_ge (l : List Char) :
    ∀ (a : Int), 0 ≤ a → (∀ c ∈ l, '0' ≤ c) →
      a ≤ l.foldl (fun x c => x * 10 + ((c.toNat : Int) - ('0'.toNat : Int))) a := by
  induction l with
  | nil => intro a _ _; simp
  | cons c rest ih =>
    intro a h0 hdig
    have hc := hdig c (List.mem_cons_self _ _)
    have hstep := decStep_ge h0 hc
    simp only [List.foldl_cons]
    exact le_trans hstep.1 (ih _ hstep.2 (fun x hx => hdig x (List.mem_cons_of_mem _ hx)))

theorem parseIntGo_eq_decimal (s : List Char) :
    ∀ (l : List Char) (acc : Int), 0 ≤ acc →
      (∀ c ∈ l, '0' ≤ c ∧ c ≤ '9') →
      l.foldl (fun x c => x * 10 + ((c.toNat : Int) - ('0'.toNat : Int))) acc < 2 ^ 63 →
      parseIntGo s acc l =
        .ok (l.foldl (fun x c => x * 10 + ((c.toNat : Int) - ('0'.toNat : Int))) acc) := by
  intro l
  induction l with
  | nil => intro acc _ _ _; rfl
  | cons c rest ih =>
    intro acc h0 hdig hbound
    have hc := hdig c (List.mem_cons_self _ _)
    have hrest : ∀ x ∈ rest, '0' ≤ x ∧ x ≤ '9' :=
      fun x hx => hdig x (List.mem_cons_of_mem _ hx)
    have hstep := decStep_ge h0 hc.1
    simp only [List.foldl_cons] at hbound ⊢
    have hmid : acc * 10 + ((c.toNat : Int) - ('0'.toNat : Int)) < 2 ^ 63 :=
      lt_of_le_of_lt (foldl_decStep_ge rest _ hstep.2 (fun x hx => (hrest x hx).1)) hbound
    simp only [parseIntGo]
    have hcond : ¬((decide (c < '0') || decide (c > '9')) = true) := by
      simp only [Bool.or_eq_true, decide_eq_true_eq]
      push_neg
      exact hc
    rw [if_neg hcond]
    rw [wrap64_eq_self hstep.2 hmid]
    exact ih _ hstep.2 hrest hbound

/-- C10 counterexample: on the all-digit input `"18446744073709551616"`
(the decimal of 2^64) `parseInt` returns 0 without error — Go's 64-bit
`int` accumulator wraps — so it does not return the decimal value
denoted by the string. -/
theorem parseInt_wraps_at_64_bits :
    ("18446744073709551616".data.all (fun c => decide ('0' ≤ c) && decide (c ≤ '9')) = true) ∧
    parseInt "18446744073709551616".data = .ok 0 ∧
    decimalValue "18446744073709551616".data = 18446744073709551616 ∧
    ¬ parseInt "18446744073709551616".data = .ok 18446744073709551616 := by
  refine ⟨by decide, by decide, by decide, by decide⟩

/-- C10 (amended): `parseInt` succeeds exactly when every character of
the input is an ASCII digit (so the empty string yields 0 with no error,
and an empty `git rev-list --count` output gives ahead/behind counts of
0 rather than a parse failure); on an all-digit input it returns the
denoted decimal value whenever that value is below 2^63 — not for every
all-digit input, as the counterexample's 64-bit accumulator wrap
shows. -/
theorem parseInt_digits_iff (s : List Char) :
    (exceptIsOk (parseInt s) = s.all (fun c => decide ('0' ≤ c) && decide (c ≤ '9'))) ∧
    parseInt ([] : List Char) = .ok 0 ∧
    ((∀ c ∈ s, '0' ≤ c ∧ c ≤ '9') → decimalValue s < 2 ^ 63 →
      parseInt s = .ok (decimalValue s)) := by
  refine ⟨parseIntGo_isOk s s 0, rfl, ?_⟩
  intro hdig hbound
  exact parseIntGo_eq_decimal s s 0 le_rfl hdig hbound

/-! ### C2 — cache key is `(path, readme_hash)` -/

theorem GetCachedDescription_fst_isSome (hash : String → String) (db : CacheDB)
    (repoPath readmeContent : String) (now : Nat) :
    (GetCachedDescription hash db repoPath readmeContent now).1.isSome = true ↔
      ∃ r ∈ db.rows, r.path = repoPath ∧ r.readmeHash = hash readmeContent := by
  cases hfind : db.rows.find? (fun r => r.path == repoPath && r.readmeHash == hash readmeContent) with
  | none =>
    simp only [GetCachedDescription, hfind]
    constructor
    · intro h; cases h
    · rintro ⟨r, hr, hp, hh⟩
      have := List.find?_eq_none.mp hfind r hr
      simp [hp, hh] at this
  | some row =>
    simp only [GetCachedDescription, hfind, Option.isSome_some, true_iff]
    have hpred := List.find?_some hfind
    simp only [Bool.and_eq_true, beq_iff_eq] at hpred
    exact ⟨row, List.mem_of_find?_eq_some hfind, hpred.1, hpred.2⟩

/-- C2: a lookup hits exactly when a stored row has the query's path and
the hash of the query's README content; on a hit, `GetDescription`
returns the stored description without calling the LLM regardless of the
LLM provider/model/language of the query; and when the stored hash for
the path differs from the query's README hash (e.g. the README changed
by a single byte), the lookup misses and `GetDescription` makes a fresh
LLM call. -/
theorem cache_key_is_path_and_readme_hash :
    (∀ (hash : String → String) (db : CacheDB) (repoPath readmeContent : String) (now : Nat),
      (GetCachedDescription hash db repoPath readmeContent now).1.isSome = true ↔
        ∃ r ∈ db.rows, r.path = repoPath ∧ r.readmeHash = hash readmeContent) ∧
    (∀ (cfg : ManagerConfig) (llmClient : Option (String → String → Except String String))
        (hash : String → String) (db : CacheDB)
        (repoPath repoName readmeContent llmProvider llmModel llmLanguage : String)
        (now : Nat) (row : RepoRow) (db1 : CacheDB),
      cfg.enableCache = true → cfg.forceRefresh = false → readmeContent ≠ "" →
      GetCachedDescription hash db repoPath readmeContent now = (some row, db1) →
      GetDescription cfg llmClient hash db repoPath repoName readmeContent
          llmProvider llmModel llmLanguage now =
        { description := .ok row.description, db := db1, llmCalled := false }) ∧
    (∀ (cfg : ManagerConfig) (generate : String → String → Except String String)
        (hash : String → String) (db : CacheDB)
        (repoPath repoName readmeOld readmeNew llmProvider llmModel llmLanguage : String)
        (now : Nat),
      cfg.enableCache = true → cfg.forceRefresh = false → readmeNew ≠ "" →
      (∀ r ∈ db.rows, r.path = repoPath → r.readmeHash = hash readmeOld) →
      hash readmeNew ≠ hash readmeOld →
      (GetDescription cfg (some generate) hash db repoPath repoName readmeNew
          llmProvider llmModel llmLanguage now).llmCalled = true) := by
  refine ⟨GetCachedDescription_fst_isSome, ?_, ?_⟩
  · intro cfg llmClient hash db repoPath repoName readmeContent llmProvider llmModel
      llmLanguage now row db1 hec hfr hne hcached
    simp only [GetDescription, hec, hfr]
    rw [if_neg (by simpa using hne)]
    simp [hcached]
  · intro cfg generate hash db repoPath repoName readmeOld readmeNew llmProvider llmModel
      llmLanguage now hec hfr hne hstored hdiff
    have hmiss : db.rows.find?
        (fun r => r.path == repoPath && r.readmeHash == hash readmeNew) = none := by
      apply List.find?_eq_none.mpr
      intro r hr
      simp only [Bool.and_eq_true, beq_iff_eq, not_and]
      intro hp
      rw [hstored r hr hp]
      exact fun hcon => hdiff hcon.symm
    simp only [GetDescription, hec, hfr]
    rw [if_neg (by simpa using hne)]
    simp only [GetCachedDescription, hmiss, Bool.and_self, if_true]
    cases hgen : generate readmeNew llmLanguage <;> simp [hgen]

/-- Witness for C2: with the identity digest, a single-row store for
path `"p"` hashed from README `"r"` hits on `("p", "r")` whatever the
LLM parameters, and misses on `("p", "s")`, calling the LLM. -/
theorem cache_key_witness :
    (GetDescription ⟨true, false⟩ (some (fun _ _ => .ok "fresh")) (fun s => s)
        { rows := [{ id := 1, path := "p", name := "n", readmeHash := "r",
                     description := "cached", llmProvider := "a", llmModel := "b",
                     llmLanguage := "zh", createdAt := 0, updatedAt := 0, lastAccessed := 0 }],
          nextId := 2, cacheHits := 0, cacheMisses := 0, llmApiCalls := 0 }
        "p" "n" "r" "otherProv" "otherModel" "en" 5).description = .ok "cached" ∧
    (GetDescription ⟨true, false⟩ (some (fun _ _ => .ok "fresh")) (fun s => s)
        { rows := [{ id := 1, path := "p", name := "n", readmeHash := "r",
                     description := "cached", llmProvider := "a", llmModel := "b",
                     llmLanguage := "zh", createdAt := 0, updatedAt := 0, lastAccessed := 0 }],
          nextId := 2, cacheHits := 0, cacheMisses := 0, llmApiCalls := 0 }
        "p" "n" "s" "prov" "model" "zh" 5).llmCalled = true := by
  constructor
  · have h := cache_key_is_path_and_readme_hash.2.1 ⟨true, false⟩
      (some (fun _ _ => .ok "fresh")) (fun s => s)
      { rows := [{ id := 1, path := "p", name := "n", readmeHash := "r",
                   description := "cached", llmProvider := "a", llmModel := "b",
                   llmLanguage := "zh", createdAt := 0, updatedAt := 0, lastAccessed := 0 }],
        nextId := 2, cacheHits := 0, cacheMisses := 0, llmApiCalls := 0 }
      "p" "n" "r" "otherProv" "otherModel" "en" 5
      { id := 1, path := "p", name := "n", readmeHash := "r",
        description := "cached", llmProvider := "a", llmModel := "b",
        llmLanguage := "zh", createdAt := 0, updatedAt := 0, lastAccessed := 0 }
      { rows := [{ id := 1, path := "p", name := "n", readmeHash := "r",
                   description := "cached", llmProvider := "a", llmModel := "b",
                   llmLanguage := "zh", createdAt := 0, updatedAt := 0, lastAccessed := 5 }],
        nextId := 2, cacheHits := 1, cacheMisses := 0, llmApiCalls := 0 }
      rfl rfl (by decide) (by decide)
    rw [h]
  · exact cache_key_is_path_and_readme_hash.2.2 ⟨true, false⟩ (fun _ _ => .ok "fresh")
      (fun s => s) _ "p" "n" "r" "s" "prov" "model" "zh" 5 rfl rfl (by decide)
      (by decide) (by decide)

/-! ### C4 — one result per repository -/

theorem map_getD_range {α : Type} (l : List α) (d : α) :
    (List.range l.length).map (fun i => l.getD i d) = l := by
  induction l with
  | nil => rfl
  | cons a t ih =>
    rw [List.length_cons, List.range_succ_eq_map, List.map_cons, List.map_map]
    simp only [List.getD_cons_zero, Function.comp_def, List.getD_cons_succ]
    rw [ih]

/-- C4: for every non-cancelled run, `UpdateRepositories` returns exactly
one `UpdateResult` per input repository — the collected results are a
permutation of the per-repository results, in particular of the same
length — and on the empty input list it returns the empty result list
without spawning any workers. -/
theorem UpdateRepositories_one_result_per_repo (config : UpdaterConfig)
    (gitPull : Repository → GitPullOutcome) (times : Nat × Nat)
    (repositories : List Repository) (arrival : List Nat)
    (h : arrival.Perm (List.range repositories.length)) :
    ((UpdateRepositories config gitPull times repositories arrival).results.Perm
      (repositories.map (updateRepository config gitPull times))) ∧
    ((UpdateRepositories config gitPull times repositories arrival).results.length
      = repositories.length) ∧
    (repositories = [] →
      UpdateRepositories config gitPull times repositories arrival
        = { results := [], workersSpawned := 0 }) := by
  by_cases hemp : repositories.length = 0
  · have hnil : repositories = [] := List.length_eq_zero.mp hemp
    have harr : arrival = [] := by
      have hl := h.length_eq
      rw [List.length_range, hemp] at hl
      exact List.length_eq_zero.mp hl
    subst hnil harr
    simp [UpdateRepositories]
  · have hperm : (UpdateRepositories config gitPull times repositories arrival).results.Perm
        (repositories.map (updateRepository config gitPull times)) := by
      simp only [UpdateRepositories, if_neg hemp]
      have hmap := h.map (fun i => updateRepository config gitPull times (repositories.getD i default))
      refine hmap.trans ?_
      rw [show (fun i => updateRepository config gitPull times (repositories.getD i default))
            = (updateRepository config gitPull times) ∘ (fun i => repositories.getD i default) from rfl]
      rw [← List.map_map, map_getD_range]
    refine ⟨hperm, hperm.length_eq.trans (List.length_map _ _), ?_⟩
    intro hnil
    exact absurd (by simp [hnil]) hemp

/-- Witness for C4: two repositories, arrival order reversed. -/
theorem UpdateRepositories_one_result_per_repo_witness :
    (UpdateRepositories ⟨10, 30, true, "", true⟩ (fun _ => .success "")
        (0, 1) [⟨["a"], "a", true, ""⟩, ⟨["b"], "b", true, ""⟩] [1, 0]).results.length = 2 :=
  (UpdateRepositories_one_result_per_repo ⟨10, 30, true, "", true⟩ (fun _ => .success "")
    (0, 1) [⟨["a"], "a", true, ""⟩, ⟨["b"], "b", true, ""⟩] [1, 0] (by decide)).2.1

/-! ### C7 — case-insensitive substring filter -/

theorem patternMatchesB_iff (repo : Repository) (p : String) :
    (goContains (toLowerStr repo.name) (toLowerStr p) ||
      goContains (toLowerStr (pathString repo.path)) (toLowerStr p)) = true ↔
      PatternMatches repo p := by
  simp [goContains, PatternMatches]

theorem shouldInclude_lower_congr (repo : Repository) (inc exc inc2 exc2 : List String)
    (hinc : inc.map toLowerStr = inc2.map toLowerStr)
    (hexc : exc.map toLowerStr = exc2.map toLowerStr) :
    shouldIncludeRepository repo inc exc = shouldIncludeRepository repo inc2 exc2 := by
  have hany : ∀ l l2 : List String, l.map toLowerStr = l2.map toLowerStr →
      (l.any (fun p => goContains (toLowerStr repo.name) (toLowerStr p) ||
        goContains (toLowerStr (pathString repo.path)) (toLowerStr p))) =
      (l2.any (fun p => goContains (toLowerStr repo.name) (toLowerStr p) ||
        goContains (toLowerStr (pathString repo.path)) (toLowerStr p))) := by
    intro l l2 hl
    rw [show (fun p => goContains (toLowerStr repo.name) (toLowerStr p) ||
          goContains (toLowerStr (pathString repo.path)) (toLowerStr p))
        = ((fun q => goContains (toLowerStr repo.name) q ||
            goContains (toLowerStr (pathString repo.path)) q) ∘ toLowerStr) from rfl]
    rw [← List.any_map, ← List.any_map, hl]
  have hempty : inc.isEmpty = inc2.isEmpty := by
    have hlen := congrArg List.length hinc
    simp only [List.length_map] at hlen
    cases inc <;> cases inc2 <;> simp_all
  simp only [shouldIncludeRepository]
  rw [hany exc exc2 hexc, hany inc inc2 hinc, hempty]

/-- C7: the Scanner's filter keeps a repository exactly when no exclude
pattern matches and the include list is empty or some include pattern
matches, a pattern matching when its case-insensitive form occurs as a
substring of the lowercase basename or lowercase absolute path; and
replacing patterns by different-case variants of themselves (same
lowercase forms) leaves the filtered list identical. -/
theorem scanner_filter_spec :
    (∀ (repo : Repository) (inc exc : List String),
      shouldIncludeRepository repo inc exc = true ↔
        ((∀ p ∈ exc, ¬ PatternMatches repo p) ∧
          (inc = [] ∨ ∃ p ∈ inc, PatternMatches repo p))) ∧
    (∀ (root : FSEntry) (inc exc inc2 exc2 : List String),
      inc.map toLowerStr = inc2.map toLowerStr →
      exc.map toLowerStr = exc2.map toLowerStr →
      ScanDirectoryWithFilter root inc exc = ScanDirectoryWithFilter root inc2 exc2) := by
  constructor
  · intro repo inc exc
    simp only [shouldIncludeRepository]
    split_ifs with h1 h2
    · simp only [Bool.false_eq_true, false_iff, not_and_or]
      left
      obtain ⟨p, hp, hm⟩ := List.any_eq_true.mp h1
      push_neg
      exact ⟨p, hp, (patternMatchesB_iff repo p).mp hm⟩
    · simp only [true_iff]
      refine ⟨?_, Or.inl (List.isEmpty_iff.mp h2)⟩
      intro p hp hm
      exact h1 (List.any_eq_true.mpr ⟨p, hp, (patternMatchesB_iff repo p).mpr hm⟩)
    · rw [List.any_eq_true]
      constructor
      · rintro ⟨p, hp, hm⟩
        refine ⟨?_, Or.inr ⟨p, hp, (patternMatchesB_iff repo p).mp hm⟩⟩
        intro q hq hmq
        exact h1 (List.any_eq_true.mpr ⟨q, hq, (patternMatchesB_iff repo q).mpr hmq⟩)
      · rintro ⟨-, hor⟩
        rcases hor with rfl | ⟨p, hp, hm⟩
        · exact absurd (List.isEmpty_nil) h2
        · exact ⟨p, hp, (patternMatchesB_iff repo p).mpr hm⟩
  · intro root inc exc inc2 exc2 hinc hexc
    have hincE : inc.isEmpty = inc2.isEmpty := by
      have hlen := congrArg List.length hinc
      simp only [List.length_map] at hlen
      cases inc <;> cases inc2 <;> simp_all
    have hexcE : exc.isEmpty = exc2.isEmpty := by
      have hlen := congrArg List.length hexc
      simp only [List.length_map] at hlen
      cases exc <;> cases exc2 <;> simp_all
    simp only [ScanDirectoryWithFilter, hincE, hexcE]
    split_ifs
    · rfl
    · exact List.filter_congr
        (fun r _ => shouldInclude_lower_congr r inc exc inc2 exc2 hinc hexc)

/-- Witness for C7: `"aB"` and `"Ab"` (and `"x"`, `"X"`) filter the same
concrete tree identically, and a concrete include pattern is accepted by
the keep-iff characterization. -/
theorem scanner_filter_spec_witness :
    shouldIncludeRepository ⟨["root", "Abc"], "Abc", true, ""⟩ ["aB"] [] = true ∧
    ScanDirectoryWithFilter (FSEntry.dir "root" [FSEntry.dir "Abc" [FSEntry.file ".git"]])
        ["aB"] ["x"] =
      ScanDirectoryWithFilter (FSEntry.dir "root" [FSEntry.dir "Abc" [FSEntry.file ".git"]])
        ["Ab"] ["X"] :=
  ⟨(scanner_filter_spec.1 ⟨["root", "Abc"], "Abc", true, ""⟩ ["aB"] []).mpr
      ⟨by simp, Or.inr ⟨"aB", by simp, by decide⟩⟩,
   scanner_filter_spec.2 (FSEntry.dir "root" [FSEntry.dir "Abc" [FSEntry.file ".git"]])
      ["aB"] ["x"] ["Ab"] ["X"] (by decide) (by decide)⟩

/-! ### C8 — status collector error semantics -/

theorem string_append_ne_empty (s t : String) (h : s.data ≠ []) : s ++ t ≠ "" := by
  intro hc
  apply h
  have hd := congrArg String.data hc
  rw [String.data_append] at hd
  exact (List.append_eq_nil.mp hd).1

theorem getLastCommitInfo_frame (env : GitStatusEnv) (st : RepositoryStatus) :
    ((getLastCommitInfo env st).1.error = st.error) ∧
    ((getLastCommitInfo env st).1.hasChanges = st.hasChanges) ∧
    ((getLastCommitInfo env st).1.status = st.status) ∧
    ((getLastCommitInfo env st).1.remoteURL = st.remoteURL) ∧
    ((getLastCommitInfo env st).1.ahead = st.ahead) ∧
    ((getLastCommitInfo env st).1.behind = st.behind) := by
  cases h1 : env.revParseHeadOut with
  | error e => simp [getLastCommitInfo, h1]
  | ok o1 =>
    cases h2 : env.logSubjectOut with
    | error e => simp [getLastCommitInfo, h1, h2]
    | ok o2 =>
      cases h3 : env.logDateOut with
      | error e => simp [getLastCommitInfo, h1, h2, h3]
      | ok o3 =>
        cases h4 : env.parseTime o3.trim <;> simp [getLastCommitInfo, h1, h2, h3, h4]

theorem getLastCommitInfo_id_of_headFail (env : GitStatusEnv) (st : RepositoryStatus)
    (h : exceptIsOk env.revParseHeadOut = false) : (getLastCommitInfo env st).1 = st := by
  cases h1 : env.revParseHeadOut with
  | error e => simp [getLastCommitInfo, h1]
  | ok o => rw [h1] at h; simp [exceptIsOk] at h

theorem getWorkingStatus_isOk (env : GitStatusEnv) :
    exceptIsOk (getWorkingStatus env) = exceptIsOk env.statusOut := by
  cases h : env.statusOut with
  | error e => simp [getWorkingStatus, h, exceptIsOk]
  | ok o =>
    simp only [getWorkingStatus, h]
    split <;> rfl

theorem getRemoteURL_isOk (env : GitStatusEnv) :
    exceptIsOk (getRemoteURL env) = exceptIsOk env.remoteUrlOut := by
  cases h : env.remoteUrlOut with
  | error e => simp [getRemoteURL, h, Except.map, exceptIsOk]
  | ok o => simp [getRemoteURL, h, Except.map, exceptIsOk]

theorem getRemoteDiff_zero_of_showFail (env : GitStatusEnv)
    (h : exceptIsOk env.remoteShowOut = false) : getRemoteDiff env = .ok (0, 0) := by
  cases h1 : env.remoteShowOut with
  | error e => simp [getRemoteDiff, h1]
  | ok o => rw [h1] at h; simp [exceptIsOk] at h

theorem CollectStatus_ok_branch (env : GitStatusEnv) (repo : Repository) (b : String)
    (hgit : repo.isGitRepo = true) (hbr : env.branchOut = .ok b) :
    CollectStatus env repo =
      (let st : RepositoryStatus := { repository := repo, branch := b.trim }
       let st := (getLastCommitInfo env st).1
       let st :=
         match getWorkingStatus env with
         | .error _ => st
         | .ok hs => { st with hasChanges := hs.1, status := hs.2 }
       let st :=
         match getRemoteURL env with
         | .error _ => st
         | .ok url => { st with remoteURL := url }
       match getRemoteDiff env with
       | .error _ => st
       | .ok ab => { st with ahead := ab.1, behind := ab.2 }) := by
  simp [CollectStatus, hgit, getCurrentBranch, hbr, Except.map]

/-- C8: `CollectStatus` sets a non-empty `error` exactly when the
repository is not a Git repository or the first query (current branch)
fails; failures of later queries leave `error` empty and their
corresponding fields zero-valued. -/
theorem CollectStatus_error_semantics (env : GitStatusEnv) (repo : Repository) :
    ((CollectStatus env repo).error = "" ↔
      (repo.isGitRepo = true ∧ exceptIsOk env.branchOut = true)) ∧
    (repo.isGitRepo = true → exceptIsOk env.branchOut = true →
      ((exceptIsOk env.revParseHeadOut = false →
         (CollectStatus env repo).lastCommitHash = "" ∧
         (CollectStatus env repo).lastCommitMsg = "" ∧
         (CollectStatus env repo).lastCommitDate = none) ∧
       (exceptIsOk env.statusOut = false →
         (CollectStatus env repo).hasChanges = false ∧
         (CollectStatus env repo).status = "") ∧
       (exceptIsOk env.remoteUrlOut = false → (CollectStatus env repo).remoteURL = "") ∧
       (exceptIsOk env.remoteShowOut = false →
         (CollectStatus env repo).ahead = 0 ∧ (CollectStatus env repo).behind = 0))) := by
  cases hgit : repo.isGitRepo with
  | false =>
    constructor
    · simp only [CollectStatus, hgit, Bool.not_false, if_pos]
      constructor
      · intro h; exact absurd h (by decide)
      · rintro ⟨h, -⟩; cases h
    · intro h; cases h
  | true =>
    cases hbr : env.branchOut with
    | error e =>
      constructor
      · simp only [CollectStatus, hgit, Bool.not_true, getCurrentBranch, hbr, Except.map,
          Bool.false_eq_true, if_false]
        constructor
        · intro h; exact absurd h (string_append_ne_empty _ e (by decide))
        · rintro ⟨-, h⟩; simp [exceptIsOk] at h
      · intro _ h
        simp [exceptIsOk] at h
    | ok b =>
      rw [CollectStatus_ok_branch env repo b hgit hbr]
      obtain ⟨f1, f2, f3, f4, f5, f6⟩ :=
        getLastCommitInfo_frame env { repository := repo, branch := b.trim }
      constructor
      · cases hws : getWorkingStatus env <;> cases hru : getRemoteURL env <;>
          cases hrd : getRemoteDiff env <;>
          simp [hbr, exceptIsOk, f1]
      · intro _ _
        refine ⟨?_, ?_, ?_, ?_⟩
        · intro hfail
          have hid := getLastCommitInfo_id_of_headFail env
            { repository := repo, branch := b.trim } hfail
          cases hws : getWorkingStatus env <;> cases hru : getRemoteURL env <;>
            cases hrd : getRemoteDiff env <;> simp [hid]
        · intro hfail
          have hws0 : exceptIsOk (getWorkingStatus env) = false :=
            (getWorkingStatus_isOk env).trans hfail
          cases hws : getWorkingStatus env with
          | ok v => rw [hws] at hws0; simp [exceptIsOk] at hws0
          | error e =>
            cases hru : getRemoteURL env <;> cases hrd : getRemoteDiff env <;>
              simp [f2, f3]
        · intro hfail
          have hru0 : exceptIsOk (getRemoteURL env) = false :=
            (getRemoteURL_isOk env).trans hfail
          cases hru : getRemoteURL env with
          | ok v => rw [hru] at hru0; simp [exceptIsOk] at hru0
          | error e =>
            cases hws : getWorkingStatus env <;> cases hrd : getRemoteDiff env <;>
              simp [f4]
        · intro hfail
          have hrd := getRemoteDiff_zero_of_showFail env hfail
          cases hws : getWorkingStatus env <;> cases hru : getRemoteURL env <;>
            simp [hrd]

/-- Witness for C8 at a concrete environment: branch query succeeds but
every later query fails, so `error` is empty and the later fields are
zero-valued. -/
theorem CollectStatus_error_semantics_witness :
    ((CollectStatus
        ⟨.ok "main", .error "x", .error "x", .error "x", .error "x", .error "x",
          .error "x", false, .error "x", .error "x", fun _ => none⟩
        ⟨["r"], "r", true, ""⟩).error = "") ∧
    ((CollectStatus
        ⟨.ok "main", .error "x", .error "x", .error "x", .error "x", .error "x",
          .error "x", false, .error "x", .error "x", fun _ => none⟩
        ⟨["r"], "r", true, ""⟩).lastCommitHash = "") ∧
    ((CollectStatus
        ⟨.ok "main", .error "x", .error "x", .error "x", .error "x", .error "x",
          .error "x", false, .error "x", .error "x", fun _ => none⟩
        ⟨["r"], "r", true, ""⟩).ahead = 0) := by
  refine ⟨?_, ?_, ?_⟩
  · exact (CollectStatus_error_semantics
      ⟨.ok "main", .error "x", .error "x", .error "x", .error "x", .error "x",
        .error "x", false, .error "x", .error "x", fun _ => none⟩
      ⟨["r"], "r", true, ""⟩).1.mpr ⟨rfl, rfl⟩
  · exact (((CollectStatus_error_semantics
      ⟨.ok "main", .error "x", .error "x", .error "x", .error "x", .error "x",
        .error "x", false, .error "x", .error "x", fun _ => none⟩
      ⟨["r"], "r", true, ""⟩).2 rfl rfl).1 rfl).1
  · exact (((CollectStatus_error_semantics
      ⟨.ok "main", .error "x", .error "x", .error "x", .error "x", .error "x",
        .error "x", false, .error "x", .error "x", fun _ => none⟩
      ⟨["r"], "r", true, ""⟩).2 rfl rfl).2.2.2 rfl).1

/-! ### C3 — `.git` boundaries in the scan -/

theorem wfChildren_mem {cs : List FSEntry} {c : FSEntry}
    (hwf : wfChildren cs = true) (hc : c ∈ cs) : wfEntry c = true := by
  induction cs with
  | nil => cases hc
  | cons e es ih =>
    rw [wfChildren] at hwf
    simp only [Bool.and_eq_true] at hwf
    rcases List.mem_cons.mp hc with rfl | hc'
    · exact hwf.1.1
    · exact ih hwf.2 hc'

theorem wfChildren_find {cs : List FSEntry} {c : FSEntry}
    (hwf : wfChildren cs = true) (hc : c ∈ cs) :
    cs.find? (fun e => e.name == c.name) = some c := by
  induction cs with
  | nil => cases hc
  | cons e es ih =>
    rw [wfChildren] at hwf
    simp only [Bool.and_eq_true] at hwf
    rcases List.mem_cons.mp hc with rfl | hc'
    · simp [List.find?]
    · have hne : ¬(e.name == c.name) = true := by
        have hall := List.all_eq_true.mp hwf.1.2 c hc'
        simp only [Bool.not_eq_eq_eq_not, Bool.not_true, beq_eq_false_iff_ne] at hall
        simp only [beq_iff_eq]
        exact fun h => hall h.symm
      rw [List.find?]
      simp only [Bool.not_eq_true] at hne
      rw [hne]
      exact ih hwf.2 hc'

theorem resolvePath_singleton (c : FSEntry) (q : List String) (d : FSEntry)
    (h : resolvePath [c] q = some d) :
    ∃ xs, q = c.name :: xs ∧
      ((xs = [] ∧ d = c) ∨ (xs ≠ [] ∧ resolvePath c.childrenOf xs = some d)) := by
  match q with
  | [] => cases h
  | x :: xs =>
    rw [resolvePath] at h
    by_cases hx : (c.name == x) = true
    · have hxeq : c.name = x := by simpa using hx
      rw [List.find?] at h
      rw [hx] at h
      simp only at h
      refine ⟨xs, by rw [hxeq], ?_⟩
      match xs with
      | [] => simp only at h; exact Or.inl ⟨rfl, (Option.some_inj.mp h).symm⟩
      | y :: ys => exact Or.inr ⟨by simp, h⟩
    · rw [List.find?] at h
      simp only [Bool.not_eq_true] at hx
      rw [hx] at h
      simp only [List.find?] at h
      cases h

theorem resolvePath_singleton_self (c : FSEntry) (xs : List String) :
    resolvePath [c] (c.name :: xs) =
      match xs with
      | [] => some c
      | _ :: _ => resolvePath c.childrenOf xs := by
  rw [resolvePath, List.find?]
  simp only [beq_self_eq_true]

theorem resolve_lift {cs : List FSEntry} {c : FSEntry} {q : List String} {d : FSEntry}
    (hwf : wfChildren cs = true) (hc : c ∈ cs)
    (h : resolvePath [c] q = some d) : resolvePath cs q = some d := by
  obtain ⟨xs, rfl, hcase⟩ := resolvePath_singleton c q d h
  have hfind := wfChildren_find hwf hc
  rcases hcase with ⟨rfl, rfl⟩ | ⟨hne, hres⟩
  · rw [resolvePath, hfind]
  · match xs, hne with
    | y :: ys, _ =>
      rw [resolvePath, hfind]
      exact hres

theorem scanEntry_dir_git {parent : List String} {n : String} {cs : List FSEntry}
    (hgit : isGitRepository cs = true) :
    scanEntry parent (.dir n cs) = [{ path := parent ++ [n], name := n, isGitRepo := true }] := by
  rw [scanEntry, if_pos hgit]

theorem scanEntry_dir_dotgit {parent : List String} {n : String} {cs : List FSEntry}
    (hgit : isGitRepository cs = false) (hname : n = ".git") :
    scanEntry parent (.dir n cs) = [] := by
  rw [scanEntry, if_neg (by simp [hgit]), if_pos (by simp [hname])]

theorem mem_scanEntries {parent : List String} {cs : List FSEntry} {r : Repository} :
    r ∈ scanEntries parent cs ↔ ∃ c ∈ cs, r ∈ scanEntry parent c := by
  induction cs with
  | nil => simp [scanEntries]
  | cons c cs ih =>
    rw [scanEntries]
    simp only [List.mem_append, ih, List.mem_cons]
    constructor
    · rintro (h | ⟨c2, hc2, h2⟩)
      · exact ⟨c, Or.inl rfl, h⟩
      · exact ⟨c2, Or.inr hc2, h2⟩
    · rintro ⟨c2, rfl | hc2, h2⟩
      · exact Or.inl h2
      · exact Or.inr ⟨c2, hc2, h2⟩

theorem mem_scanEntry_descend {parent : List String} {n : String} {cs : List FSEntry}
    {r : Repository} (hgit : isGitRepository cs = false) (hname : ¬ n = ".git") :
    r ∈ scanEntry parent (.dir n cs) ↔ ∃ c ∈ cs, r ∈ scanEntry (parent ++ [n]) c := by
  rw [scanEntry, if_neg (by simp [hgit]), if_neg (by simpa using hname)]
  exact mem_scanEntries

theorem scanEntry_shape : (e : FSEntry) → ∀ (parent : List String) (r : Repository),
    r ∈ scanEntry parent e → ∃ rest, r.path = parent ++ e.name :: rest
  | .file nm => by
    intro parent r hr
    simp [scanEntry] at hr
  | .dir n cs => by
    intro parent r hr
    by_cases hgit : isGitRepository cs = true
    · rw [scanEntry_dir_git hgit] at hr
      simp only [List.mem_singleton] at hr
      exact ⟨[], by simp [hr, FSEntry.name]⟩
    · by_cases hname : n = ".git"
      · rw [scanEntry_dir_dotgit (by simpa using hgit) hname] at hr
        cases hr
      · rw [mem_scanEntry_descend (by simpa using hgit) hname] at hr
        obtain ⟨c, hc, hrc⟩ := hr
        obtain ⟨rest, hrest⟩ := scanEntry_shape c (parent ++ [n]) r hrc
        refine ⟨c.name :: rest, ?_⟩
        rw [hrest, List.append_assoc]
        rfl
termination_by e => sizeOf e
decreasing_by
  have := List.sizeOf_lt_of_mem hc
  simp only [FSEntry.dir.sizeOf_spec]
  omega

theorem scanEntry_sound : (e : FSEntry) → ∀ (parent : List String) (r : Repository),
    wfEntry e = true → r ∈ scanEntry parent e →
    ∃ q d, r.path = parent ++ q ∧ resolvePath [e] q = some d ∧
      d.isDir = true ∧ isGitRepository d.childrenOf = true
  | .file nm => by
    intro parent r _ hr
    simp [scanEntry] at hr
  | .dir n cs => by
    intro parent r hwf hr
    by_cases hgit : isGitRepository cs = true
    · rw [scanEntry_dir_git hgit] at hr
      simp only [List.mem_singleton] at hr
      refine ⟨[n], .dir n cs, by rw [hr], ?_, rfl, hgit⟩
      have := resolvePath_singleton_self (.dir n cs) []
      simpa [FSEntry.name] using this
    · by_cases hname : n = ".git"
      · rw [scanEntry_dir_dotgit (by simpa using hgit) hname] at hr
        cases hr
      · rw [mem_scanEntry_descend (by simpa using hgit) hname] at hr
        obtain ⟨c, hc, hrc⟩ := hr
        have hwfc : wfEntry c = true := wfChildren_mem (by rw [wfEntry] at hwf; exact hwf) hc
        obtain ⟨q', d, hpath, hres, hdir, hgd⟩ := scanEntry_sound c (parent ++ [n]) r hwfc hrc
        obtain ⟨xs, hq', -⟩ := resolvePath_singleton c q' d hres
        refine ⟨n :: q', d, ?_, ?_, hdir, hgd⟩
        · rw [hpath, List.append_assoc]; rfl
        · have hlift : resolvePath cs q' = some d :=
            resolve_lift (by rw [wfEntry] at hwf; exact hwf) hc hres
          have hself := resolvePath_singleton_self (.dir n cs) (q' : List String)
          rw [hq'] at hlift ⊢
          rw [show (FSEntry.dir n cs).name = n from rfl] at hself
          rw [hq'] at hself
          simpa [FSEntry.childrenOf] using hself.trans (by simpa using hlift)
termination_by e => sizeOf e
decreasing_by
  have := List.sizeOf_lt_of_mem hc
  simp only [FSEntry.dir.sizeOf_spec]
  omega

theorem scanEntry_no_descendant : (e : FSEntry) → ∀ (parent q : List String) (d : FSEntry),
    wfEntry e = true → resolvePath [e] q = some d → isGitRepository d.childrenOf = true →
    ∀ r ∈ scanEntry parent e, (parent ++ q) <+: r.path → r.path = parent ++ q
  | .file nm => by
    intro parent q d _ _ _ r hr
    simp [scanEntry] at hr
  | .dir n cs => by
    intro parent q d hwf hres hgitd r hr hpre
    rw [wfEntry] at hwf
    obtain ⟨xs, hq, hcase⟩ := resolvePath_singleton (.dir n cs) q d hres
    have hqn : q = n :: xs := by simpa [FSEntry.name] using hq
    subst hqn
    rcases hcase with ⟨rfl, rfl⟩ | ⟨hxs, hresc⟩
    · have hgitcs : isGitRepository cs = true := by
        simpa [FSEntry.childrenOf] using hgitd
      rw [scanEntry_dir_git hgitcs] at hr
      simp only [List.mem_singleton] at hr
      rw [hr]
    · have hresc' : resolvePath cs xs = some d := by
        simpa [FSEntry.childrenOf] using hresc
      match xs, hxs, hresc', hpre with
      | y :: ys, _, hresc', hpre =>
        by_cases hgit : isGitRepository cs = true
        · rw [scanEntry_dir_git hgit] at hr
          simp only [List.mem_singleton] at hr
          rw [hr] at hpre
          exfalso
          have hlen := List.IsPrefix.length_le hpre
          simp [List.length_append] at hlen
        · by_cases hname : n = ".git"
          · rw [scanEntry_dir_dotgit (by simpa using hgit) hname] at hr
            cases hr
          · rw [mem_scanEntry_descend (by simpa using hgit) hname] at hr
            obtain ⟨c, hc, hrc⟩ := hr
            obtain ⟨rest, hrpath⟩ := scanEntry_shape c (parent ++ [n]) r hrc
            rw [hrpath, List.append_cons parent n (y :: ys)] at hpre
            rw [List.prefix_append_right_inj, List.cons_prefix_cons] at hpre
            obtain ⟨hyc, hysrest⟩ := hpre
            have hfind : cs.find? (fun e2 => e2.name == y) = some c := by
              rw [hyc]
              exact wfChildren_find hwf hc
            rw [resolvePath, hfind] at hresc'
            cases ys with
            | nil =>
              have hdc : c = d := Option.some_inj.mp hresc'
              subst hdc
              cases c with
              | file nm2 => simp [FSEntry.childrenOf, isGitRepository] at hgitd
              | dir m cs2 =>
                have hgit2 : isGitRepository cs2 = true := by
                  simpa [FSEntry.childrenOf] using hgitd
                rw [scanEntry_dir_git hgit2] at hrc
                simp only [List.mem_singleton] at hrc
                have hym : y = m := by simpa [FSEntry.name] using hyc
                rw [hrc, List.append_cons parent n [y], hym]
            | cons z zs =>
              have hwfc : wfEntry c = true := wfChildren_mem hwf hc
              have hsing : resolvePath [c] (y :: z :: zs) = some d := by
                rw [hyc]
                rw [resolvePath_singleton_self c (z :: zs)]
                simpa using hresc'
              have hpre2 : ((parent ++ [n]) ++ (y :: z :: zs)) <+: r.path := by
                rw [hrpath]
                rw [List.prefix_append_right_inj, List.cons_prefix_cons]
                exact ⟨hyc, hysrest⟩
              have hfin := scanEntry_no_descendant c (parent ++ [n]) (y :: z :: zs) d
                hwfc hsing hgitd r hrc hpre2
              rw [hfin, List.append_cons parent n (y :: z :: zs)]
termination_by e => sizeOf e
decreasing_by
  have := List.sizeOf_lt_of_mem hc
  simp only [FSEntry.dir.sizeOf_spec]
  omega

/-- C3: for every well-formed directory tree, every repository reported
by `ScanDirectory` resolves to a directory containing a `.git` entry,
and once a directory contains a `.git` entry no proper descendant of it
is reported. -/
theorem ScanDirectory_git_boundary (root : FSEntry) (hwf : wfEntry root = true) :
    (∀ r ∈ ScanDirectory root, ∃ d, resolvePath [root] r.path = some d ∧
      d.isDir = true ∧ isGitRepository d.childrenOf = true) ∧
    (∀ (p : List String) (d : FSEntry), resolvePath [root] p = some d →
      isGitRepository d.childrenOf = true →
      ∀ r ∈ ScanDirectory root, p <+: r.path → r.path = p) := by
  constructor
  · intro r hr
    obtain ⟨q, d, hpath, hres, hdir, hgit⟩ := scanEntry_sound root [] r hwf hr
    simp only [List.nil_append] at hpath
    exact ⟨d, hpath ▸ hres, hdir, hgit⟩
  · intro p d hres hgit r hr hpre
    have := scanEntry_no_descendant root [] p d hwf hres hgit r hr
      (by simpa using hpre)
    simpa using this

/-- Witness for C3 on the spec's scenario tree `/root/a/.git`,
`/root/a/sub/.git`: the single reported repository is `a` itself, it
resolves to a `.git`-bearing directory, and no descendant of `a` is
reported. -/
theorem ScanDirectory_git_boundary_witness :
    (∃ d, resolvePath
        [FSEntry.dir "root" [FSEntry.dir "a" [FSEntry.dir ".git" [],
          FSEntry.dir "sub" [FSEntry.dir ".git" []]]]]
        ["root", "a"] = some d ∧ d.isDir = true ∧ isGitRepository d.childrenOf = true) ∧
    ((⟨["root", "a"], "a", true, ""⟩ : Repository).path = ["root", "a"]) := by
  constructor
  · exact (ScanDirectory_git_boundary
      (FSEntry.dir "root" [FSEntry.dir "a" [FSEntry.dir ".git" [],
        FSEntry.dir "sub" [FSEntry.dir ".git" []]]]) (by decide)).1
      ⟨["root", "a"], "a", true, ""⟩ (by decide)
  · exact (ScanDirectory_git_boundary
      (FSEntry.dir "root" [FSEntry.dir "a" [FSEntry.dir ".git" [],
        FSEntry.dir "sub" [FSEntry.dir ".git" []]]]) (by decide)).2
      ["root", "a"]
      (FSEntry.dir "a" [FSEntry.dir ".git" [], FSEntry.dir "sub" [FSEntry.dir ".git" []]])
      rfl rfl ⟨["root", "a"], "a", true, ""⟩ (by decide) (by decide)

/-- Witness for C10 at the concrete inputs `"12"` and `""`. -/
theorem parseInt_digits_iff_witness :
    parseInt "12".data = .ok 12 ∧ exceptIsOk (parseInt "".data) = true :=
  ⟨by
    have h := (parseInt_digits_iff "12".data).2.2 (by decide) (by decide)
    rw [h]; decide,
   by
    have h := (parseInt_digits_iff "".data).1
    rw [h]; decide⟩

end RepoSense
